import Mathlib

/-!
Shallow embedding of the migration orchestration engine of the
chainql/migrations repository (sources: migrator.go and the registry and
caser files), with theorems settling the frozen claims about it.

Modelling conventions:
* Go strings are Lean Strings; the byte-wise string comparison used by
  sort.Strings is modelled by an executable lexicographic comparison on the
  character data (strLe below), which agrees with Go byte order on the ASCII
  migration names the engine works with.
* Go maps used as sets or as name-to-migration maps are modelled as lists
  (membership) and association lists (lookup); a loop that appends to a slice
  is modelled by a fold that appends.
* The database is a state value: the tracking table (existence flag, rows in
  insertion order with auto-incremented ids) plus an abstract user-schema
  component that changesets act on. RunInTransaction is a function that
  reverts the state when the body fails. A separate trace lists the names
  whose changeset functions were actually invoked; the trace is not part of
  the transactional state, so it survives a rollback, which lets theorems
  speak about which changesets executed.
* Changesets (Go interface values checked against two call shapes) are an
  inductive: nil, the two accepted shapes as functions over the user-schema
  component, or an invalid shape.
-/

/-- Lexicographic comparison of character lists by code point, the order in
which sort.Strings sorts ascending (byte order in Go; identical on ASCII). -/
def strLeL : List Char → List Char → Bool
  | [], _ => true
  | _ :: _, [] => false
  | a :: as, b :: bs =>
    if a.toNat < b.toNat then true
    else if b.toNat < a.toNat then false
    else strLeL as bs

/-- Lexicographic order on strings, as used by sort.Strings. -/
def strLe (a b : String) : Bool := strLeL a.data b.data

theorem strLeL_total : ∀ xs ys : List Char, strLeL xs ys = true ∨ strLeL ys xs = true := by
  intro xs
  induction xs with
  | nil => intro ys; left; rfl
  | cons a as ih =>
    intro ys
    cases ys with
    | nil => right; rfl
    | cons b bs =>
      simp only [strLeL]
      rcases Nat.lt_trichotomy a.toNat b.toNat with h | h | h
      · left; simp [h]
      · have h1 : ¬ a.toNat < b.toNat := by omega
        have h2 : ¬ b.toNat < a.toNat := by omega
        rcases ih bs with h3 | h3 <;> simp [h1, h2, h3]
      · right; simp [h]

theorem strLeL_trans : ∀ xs ys zs : List Char,
    strLeL xs ys = true → strLeL ys zs = true → strLeL xs zs = true := by
  intro xs
  induction xs with
  | nil => intro ys zs _ _; rfl
  | cons a as ih =>
    intro ys zs h1 h2
    cases ys with
    | nil => simp [strLeL] at h1
    | cons b bs =>
      cases zs with
      | nil => simp [strLeL] at h2
      | cons c cs =>
        simp only [strLeL] at h1 h2 ⊢
        rcases Nat.lt_trichotomy a.toNat b.toNat with hab | hab | hab
        · rcases Nat.lt_trichotomy b.toNat c.toNat with hbc | hbc | hbc
          · have : a.toNat < c.toNat := by omega
            simp [this]
          · have : a.toNat < c.toNat := by omega
            simp [this]
          · have hx : ¬ b.toNat < c.toNat := by omega
            simp [hx, hbc] at h2
        · rcases Nat.lt_trichotomy b.toNat c.toNat with hbc | hbc | hbc
          · have : a.toNat < c.toNat := by omega
            simp [this]
          · have hx1 : ¬ a.toNat < b.toNat := by omega
            have hx2 : ¬ b.toNat < a.toNat := by omega
            have hy1 : ¬ b.toNat < c.toNat := by omega
            have hy2 : ¬ c.toNat < b.toNat := by omega
            have hz1 : ¬ a.toNat < c.toNat := by omega
            have hz2 : ¬ c.toNat < a.toNat := by omega
            simp [hx1, hx2] at h1
            simp [hy1, hy2] at h2
            simp [hz1, hz2]
            exact ih bs cs h1 h2
          · have hx : ¬ b.toNat < c.toNat := by omega
            simp [hx, hbc] at h2
        · have hx : ¬ a.toNat < b.toNat := by omega
          simp [hx, hab] at h1

theorem strLeL_antisymm : ∀ xs ys : List Char,
    strLeL xs ys = true → strLeL ys xs = true → xs = ys := by
  intro xs
  induction xs with
  | nil =>
    intro ys _ h2
    cases ys with
    | nil => rfl
    | cons b bs => simp [strLeL] at h2
  | cons a as ih =>
    intro ys h1 h2
    cases ys with
    | nil => simp [strLeL] at h1
    | cons b bs =>
      simp only [strLeL] at h1 h2
      rcases Nat.lt_trichotomy a.toNat b.toNat with hab | hab | hab
      · have hx : ¬ b.toNat < a.toNat := by omega
        simp [hx, hab] at h2
      · have hx1 : ¬ a.toNat < b.toNat := by omega
        have hx2 : ¬ b.toNat < a.toNat := by omega
        simp [hx1, hx2] at h1 h2
        have hchar : a = b := Char.ext (UInt32.ext hab)
        rw [hchar, ih bs h1 h2]
      · have hx : ¬ a.toNat < b.toNat := by omega
        simp [hx, hab] at h1

/-- The relation strLe as a Prop, for the sortedness statements. -/
def StrLeP (a b : String) : Prop := strLe a b = true

instance : DecidableRel StrLeP := fun a b => by
  unfold StrLeP; infer_instance

instance : IsTotal String StrLeP :=
  ⟨fun a b => strLeL_total a.data b.data⟩

instance : IsTrans String StrLeP :=
  ⟨fun a b c h1 h2 => strLeL_trans a.data b.data c.data h1 h2⟩

instance : IsAntisymm String StrLeP :=
  ⟨fun a b h1 h2 => String.ext (strLeL_antisymm a.data b.data h1 h2)⟩

/-- Sorting a list of names ascending, as sort.Strings does. -/
def sortStrings (l : List String) : List String :=
  List.insertionSort StrLeP l

theorem sortStrings_sorted (l : List String) : (sortStrings l).Sorted StrLeP :=
  List.sorted_insertionSort StrLeP l

theorem sortStrings_perm (l : List String) : List.Perm (sortStrings l) l :=
  List.perm_insertionSort StrLeP l

theorem sortStrings_congr_perm (l1 l2 : List String) (h : List.Perm l1 l2) :
    sortStrings l1 = sortStrings l2 :=
  List.eq_of_perm_of_sorted
    (((sortStrings_perm l1).trans h).trans (sortStrings_perm l2).symm)
    (sortStrings_sorted l1) (sortStrings_sorted l2)

/-- PostgresFlavour from registry.go: which Postgres-like API is connected. -/
inductive PostgresFlavour where
  | Postgres
  | CockroachDB
deriving Repr, DecidableEq

/-- Context passed to changesets of the two-argument shape (registry.go). -/
structure Context where
  Flavour : PostgresFlavour
deriving Repr, DecidableEq

/-- The error values of migrator.go and registry.go. Wrapping with message
text (errors.Wrapf) is modelled by carrying the dynamic data as constructor
arguments; error identity is the constructor. -/
inductive MErr where
  | invalidVerbosity (currentVerbosity : Int)
  | migrationNotKnown (missing : List String)
  | initialMigrationNotKnown
  | invalidMigrationFuncRun (name : String)
  | changesetFailed (name : String) (msg : String)
  | migrationAlreadyExists (name : String)
  | nullMigrationFunc
  | invalidMigrationFuncRegistered (typeName : String)
deriving Repr, DecidableEq

/-- The abstract user-schema component of the database that changesets act
on. Changesets in Go run arbitrary SQL inside the transaction; the engine's
claims only concern the tracking table, which the engine itself manages, so
the changeset effect is abstracted to a transformer of this component. -/
abbrev UserDb := Nat

/-- A migration function value (a Go interface value). The type switch in
the sources accepts exactly two call shapes; everything else, including nil,
is rejected. -/
inductive MigFn where
  | nullFn : MigFn
  | txOnly : (UserDb → Except String UserDb) → MigFn
  | txCtx : (UserDb → Context → Except String UserDb) → MigFn
  | badSig : String → MigFn

/-- The migration record stored in a Registry (migrator.go: type migration). -/
structure migration where
  Name : String
  Up : MigFn
  Down : MigFn

/-- checkAllowedMigrationFunctions from registry.go: nil is rejected, the two
accepted shapes pass, anything else is an invalid registration. -/
def checkAllowedMigrationFunctions (fn : MigFn) : Except MErr Unit :=
  match fn with
  | .nullFn => .error .nullMigrationFunc
  | .txOnly _ => .ok ()
  | .txCtx _ => .ok ()
  | .badSig t => .error (.invalidMigrationFuncRegistered t)

/-- Registry from registry.go, at the level of contents: the Go map is an
association list keyed by name, the name slice is a list of names. The nil
map and the empty map are identified here (they are observationally equal
through Get, List and Count); RegistryH below models the slice aliasing that
the frame-effect claims are about. -/
structure Registry where
  allMigrations : List (String × migration)
  migrationNames : List String

/-- Registry.Get: lookup by name, with a found flag via Option. -/
def Registry.Get (r : Registry) (name : String) : Option migration :=
  r.allMigrations.lookup name

/-- Registry.Count: the size of the map. -/
def Registry.Count (r : Registry) : Nat :=
  r.allMigrations.length

/-- Registry.List at the level of contents: the names in insertion order. -/
def Registry.List (r : Registry) : List String :=
  r.migrationNames

/-- Keyed insertion into the association list modelling a Go map assignment:
overwrite the entry if the key is present, otherwise add it at the end. -/
def mapInsert (entries : List (String × migration)) (key : String) (value : migration) :
    List (String × migration) :=
  if (entries.lookup key).isSome then
    entries.map (fun p => if p.1 = key then (key, value) else p)
  else entries ++ [(key, value)]

/-- Registry.Register from registry.go: validate both functions, reject a
duplicate name, otherwise append the name and insert the map entry. -/
def Registry.Register (r : Registry) (name : String) (up down : MigFn) :
    Except MErr Unit × Registry :=
  match checkAllowedMigrationFunctions up with
  | .error e => (.error e, r)
  | .ok _ =>
    match checkAllowedMigrationFunctions down with
    | .error e => (.error e, r)
    | .ok _ =>
      if (r.allMigrations.lookup name).isSome then
        (.error (.migrationAlreadyExists name), r)
      else
        (.ok (), { allMigrations := r.allMigrations ++ [(name, ⟨name, up, down⟩)],
                   migrationNames := r.migrationNames ++ [name] })

/-- Registry.From from registry.go, at the level of contents: if the other
registry's map is empty, return at once; otherwise take over the other's
name list, sort it, and add every entry of the other's map into this map.
Note the destination map is not cleared first. -/
def Registry.From (r other : Registry) : Registry :=
  if other.allMigrations.length = 0 then r
  else
    { allMigrations :=
        other.allMigrations.foldl (fun acc kv => mapInsert acc kv.1 kv.2) r.allMigrations,
      migrationNames := sortStrings other.migrationNames }

/-- Registry.Sort from registry.go: sort the name list in place. -/
def Registry.Sort (r : Registry) : Registry :=
  { r with migrationNames := sortStrings r.migrationNames }

/-- Registry.EnsureCapacity at the level of contents: a pure capacity hint,
no observable change. -/
def Registry.EnsureCapacity (r : Registry) (capacity : Nat) : Registry :=
  r

/-- A membership set built the way the Go code fills a map used as a set. -/
def mkSet (l : List String) : List String :=
  l.foldl (fun s n => if s.contains n then s else n :: s) []

/-- difference from migrator.go: returns a minus b, a intersect b (called the
union in the Go doc comment), and b minus a, the first two in the order of a
and the last in the order of b. The Go loops append into fresh slices while
testing membership in the two map-built sets. -/
def difference (a b : List String) :
    List String × List String × List String :=
  let aSet := mkSet a
  let bSet := mkSet b
  let p := a.foldl
    (fun (acc : List String × List String) name =>
      if bSet.contains name then (acc.1, acc.2 ++ [name])
      else (acc.1 ++ [name], acc.2))
    ([], [])
  let bNotA := b.foldl
    (fun acc name => if aSet.contains name then acc else acc ++ [name]) []
  (p.1, p.2, bNotA)

/-- getMigrationsToRun from migrator.go, as a function of the two name lists
it consumes: the completed names read from the tracking table and the
registered names from Registry.List. Completed names with no registered
counterpart abort with ErrMigrationNotKnown; otherwise the registered but
not yet completed names are returned, sorted ascending. -/
def getMigrationsToRun (completedMigrations registeredNames : List String) :
    Except MErr (List String) :=
  let d := difference completedMigrations registeredNames
  let missingMigrations := d.1
  let migrationsToRun := d.2.2
  if missingMigrations.length > 0 then
    .error (.migrationNotKnown missingMigrations)
  else if migrationsToRun.length > 0 then
    .ok (sortStrings migrationsToRun)
  else
    .ok migrationsToRun

theorem contains_true_iff (l : List String) (n : String) : l.contains n = true ↔ n ∈ l := by
  simp [List.contains]

theorem mem_mkSet (l : List String) (n : String) : n ∈ mkSet l ↔ n ∈ l := by
  have key : ∀ (l2 : List String) (acc : List String),
      n ∈ l2.foldl (fun s m => if s.contains m then s else m :: s) acc ↔ n ∈ acc ∨ n ∈ l2 := by
    intro l2
    induction l2 with
    | nil => intro acc; simp
    | cons x xs ih =>
      intro acc
      rw [List.foldl_cons, ih]
      by_cases hx : acc.contains x = true
      · have hxm : x ∈ acc := (contains_true_iff acc x).mp hx
        have hkey : n = x → n ∈ acc := fun h => h ▸ hxm
        simp only [hx, if_true, List.mem_cons]
        tauto
      · rw [Bool.not_eq_true] at hx
        simp only [hx, Bool.false_eq_true, if_false, List.mem_cons]
        tauto
  rw [mkSet, key]
  simp

theorem contains_mkSet (l : List String) (n : String) :
    (mkSet l).contains n = l.contains n := by
  by_cases h : n ∈ l
  · have e1 : (mkSet l).contains n = true :=
      (contains_true_iff _ _).mpr ((mem_mkSet l n).mpr h)
    have e2 : l.contains n = true := (contains_true_iff _ _).mpr h
    rw [e1, e2]
  · have e1 : ¬ (mkSet l).contains n = true :=
      fun hc => h ((mem_mkSet l n).mp ((contains_true_iff _ _).mp hc))
    have e2 : ¬ l.contains n = true := fun hc => h ((contains_true_iff _ _).mp hc)
    rw [Bool.not_eq_true] at e1 e2
    rw [e1, e2]

theorem foldl_collect_filter (p : String → Bool) :
    ∀ (l : List String) (init : List String),
      l.foldl (fun acc x => if p x then acc else acc ++ [x]) init
        = init ++ l.filter (fun x => !(p x)) := by
  intro l
  induction l with
  | nil => intro init; simp
  | cons x xs ih =>
    intro init
    by_cases hx : p x = true
    · simp [hx, ih]
    · rw [Bool.not_eq_true] at hx
      simp [hx, ih]

theorem foldl_collect_pair (q : String → Bool) :
    ∀ (l : List String) (acc : List String × List String),
      l.foldl
        (fun (acc : List String × List String) name =>
          if q name then (acc.1, acc.2 ++ [name]) else (acc.1 ++ [name], acc.2))
        acc
      = (acc.1 ++ l.filter (fun n => !(q n)), acc.2 ++ l.filter q) := by
  intro l
  induction l with
  | nil => intro acc; simp
  | cons x xs ih =>
    intro acc
    by_cases hx : q x = true
    · simp [hx, ih]
    · rw [Bool.not_eq_true] at hx
      simp [hx, ih]

theorem difference_spec (a b : List String) :
    difference a b
      = (a.filter (fun n => !(b.contains n)),
         a.filter (fun n => b.contains n),
         b.filter (fun n => !(a.contains n))) := by
  have e1 : difference a b =
      ((a.foldl (fun (acc : List String × List String) name =>
          if (mkSet b).contains name then (acc.1, acc.2 ++ [name])
          else (acc.1 ++ [name], acc.2)) ([], [])).1,
       (a.foldl (fun (acc : List String × List String) name =>
          if (mkSet b).contains name then (acc.1, acc.2 ++ [name])
          else (acc.1 ++ [name], acc.2)) ([], [])).2,
       b.foldl (fun acc name =>
          if (mkSet a).contains name then acc else acc ++ [name]) []) := rfl
  rw [e1, foldl_collect_pair (fun name => (mkSet b).contains name) a ([], []),
      foldl_collect_filter (fun name => (mkSet a).contains name) b []]
  simp only [List.nil_append]
  rw [show (fun n => !(mkSet b).contains n) = (fun n => !(b.contains n)) by
        funext n; rw [contains_mkSet],
      show (fun n => !(mkSet a).contains n) = (fun n => !(a.contains n)) by
        funext n; rw [contains_mkSet],
      show (fun n => (mkSet b).contains n) = (fun n => b.contains n) from
        funext (contains_mkSet b)]

/-- C1: the reconciliation computed before running migrations is exact. The
first component of difference, the unknown set, is the applied names with no
registered counterpart, in applied order; the third component, the pending
set, is the registered names not yet applied; getMigrationsToRun returns the
pending set sorted in ascending lexicographic order exactly when the unknown
set is empty, and the ErrMigrationNotKnown error carrying the unknown set
otherwise. -/
theorem C1_reconciliation_exact (a b : List String) :
    (difference a b).1 = a.filter (fun n => !(b.contains n)) ∧
    (difference a b).2.2 = b.filter (fun n => !(a.contains n)) ∧
    (sortStrings (b.filter (fun n => !(a.contains n)))).Sorted StrLeP ∧
    List.Perm (sortStrings (b.filter (fun n => !(a.contains n))))
      (b.filter (fun n => !(a.contains n))) ∧
    getMigrationsToRun a b
      = (if a.filter (fun n => !(b.contains n)) = [] then
           Except.ok (sortStrings (b.filter (fun n => !(a.contains n))))
         else
           Except.error (MErr.migrationNotKnown (a.filter (fun n => !(b.contains n))))) := by
  have hd := difference_spec a b
  have he : getMigrationsToRun a b
      = (if (difference a b).1.length > 0 then
           Except.error (MErr.migrationNotKnown (difference a b).1)
         else if (difference a b).2.2.length > 0 then
           Except.ok (sortStrings (difference a b).2.2)
         else Except.ok (difference a b).2.2) := rfl
  refine ⟨by rw [hd], by rw [hd], sortStrings_sorted _, sortStrings_perm _, ?_⟩
  rw [he, hd]
  cases hm : a.filter (fun n => !(b.contains n)) with
  | cons y ys => simp
  | nil =>
    simp only [List.length_nil, Nat.lt_irrefl, if_false]
    cases ht : b.filter (fun n => !(a.contains n)) with
    | nil => simp [sortStrings, List.insertionSort]
    | cons z zs => simp

/-- A row of the tracking table: surrogate id, migration name, batch number.
The applied timestamp plays no role in any claim and is omitted. -/
structure Row where
  id : Nat
  name : String
  batch : Int
deriving Repr, DecidableEq

/-- The database state: whether the tracking table exists, its rows in
insertion order, the next auto-increment id, and the abstract user schema. -/
structure Db where
  tableExists : Bool
  rows : List Row
  nextId : Nat
  user : UserDb
deriving Repr, DecidableEq

/-- The Migrator, restricted to the fields the orchestration operations
read: the registry, the initial-migration name, the locking flag, the
verbosity level and the execution context. The fields serving the excluded
collaborators (logger, directories, naming convention, table name, which is
a constant identifier here) are omitted. -/
structure Migrator where
  registry : Registry
  initialMigration : String
  explicitLock : Bool
  verbosity : Int
  context : Context

/-- RunInTransaction: run the body on the current state; commit the new
state on success, revert to the original state on failure. The trace of
invoked changesets is reported either way, since execution cannot be made
un-happen by a rollback. -/
def runTx (db : Db) (body : Db → List String × Except MErr Db) :
    Db × List String × Option MErr :=
  match body db with
  | (tr, .ok db2) => (db2, tr, none)
  | (tr, .error e) => (db, tr, some e)

/-- ensureMigrationTable: CREATE TABLE IF NOT EXISTS on the tracking table. -/
def ensureMigrationTable (m : Migrator) (db : Db) : Db :=
  { db with tableExists := true }

/-- maybeLockTable: the explicit table lock serializes concurrent runs but
changes no table contents, so in this single-run model it is the identity
on the state whether or not locking is enabled. -/
def maybeLockTable (m : Migrator) (db : Db) : Db :=
  db

/-- insertCompletedMigration: append a tracking row for the given name and
batch, consuming the next auto-increment id. -/
def insertCompletedMigration (db : Db) (name : String) (batch : Int) : Db :=
  { db with rows := db.rows ++ [⟨db.nextId, name, batch⟩], nextId := db.nextId + 1 }

/-- getCompletedMigrations: the name column of the tracking table. -/
def completedNames (db : Db) : List String :=
  db.rows.map Row.name

/-- getBatchNumber: select max(batch), which is 0 on an empty table. -/
def getBatchNumber (db : Db) : Int :=
  match db.rows.map Row.batch with
  | [] => 0
  | x :: xs => xs.foldl max x

/-- removeRolledbackMigration: delete from the tracking table every row
bearing the given name. -/
def removeRolledbackMigration (db : Db) (name : String) : Db :=
  { db with rows := db.rows.filter (fun r => !(r.name == name)) }

/-- Rows of the given batch ordered by descending id. -/
def sortByIdDesc (rows : List Row) : List Row :=
  List.insertionSort (fun r s => s.id ≤ r.id) rows

/-- getMigrationsInBatch: names of the rows in the given batch, ordered by
descending id. -/
def getMigrationsInBatch (db : Db) (batch : Int) : List String :=
  (sortByIdDesc (db.rows.filter (fun r => r.batch == batch))).map Row.name

/-- Dispatch of one changeset by its declared call shape, as the run-time
type switch in migrator.go does: the two accepted shapes are invoked (and
their invocation is recorded in the trace), a changeset failure is wrapped
with the migration's name, and any other shape is the
ErrInvalidMigrationFuncRun fault without invoking anything. -/
def runChangeset (cx : Context) (name : String) (fn : MigFn) (db : Db) :
    List String × Except MErr Db :=
  match fn with
  | .txOnly f =>
    ([name],
      match f db.user with
      | .ok u => .ok { db with user := u }
      | .error msg => .error (.changesetFailed name msg))
  | .txCtx f =>
    ([name],
      match f db.user cx with
      | .ok u => .ok { db with user := u }
      | .error msg => .error (.changesetFailed name msg))
  | .nullFn => ([], .error (.invalidMigrationFuncRun name))
  | .badSig _ => ([], .error (.invalidMigrationFuncRun name))

/-- The forward loop of MigrateBatch: for each pending name, look the
migration up, dispatch its Up changeset and record the tracking row with the
shared batch number; the first failure aborts. -/
def runMigrationsUp (cx : Context) (reg : Registry) (batch : Int) :
    List String → Db → List String × Except MErr Db
  | [], db => ([], .ok db)
  | migrationName :: rest, db =>
    match reg.Get migrationName with
    | none => ([], .error (.migrationNotKnown [migrationName]))
    | some mig =>
      match runChangeset cx migrationName mig.Up db with
      | (tr, .error e) => (tr, .error e)
      | (tr, .ok db1) =>
        let db2 := insertCompletedMigration db1 migrationName batch
        let next := runMigrationsUp cx reg batch rest db2
        (tr ++ next.1, next.2)

/-- The backward loop of Rollback: for each name, look the migration up,
dispatch its Down changeset and delete the tracking row; the first failure
aborts. -/
def runMigrationsDown (cx : Context) (reg : Registry) :
    List String → Db → List String × Except MErr Db
  | [], db => ([], .ok db)
  | migrationName :: rest, db =>
    match reg.Get migrationName with
    | none => ([], .error (.migrationNotKnown [migrationName]))
    | some mig =>
      match runChangeset cx migrationName mig.Down db with
      | (tr, .error e) => (tr, .error e)
      | (tr, .ok db1) =>
        let db2 := removeRolledbackMigration db1 migrationName
        let next := runMigrationsDown cx reg rest db2
        (tr ++ next.1, next.2)

/-- Init from migrator.go: one transaction that ensures the table, locks it,
increments the batch number, runs the configured initial migration (failing
with ErrInitialMigrationNotKnown when it is not registered) and records it.
There is no reconciliation against the tracking table. -/
def Migrator.Init (m : Migrator) (db : Db) : Db × List String × Option MErr :=
  runTx db (fun tx0 =>
    let tx1 := ensureMigrationTable m tx0
    let tx2 := maybeLockTable m tx1
    let batch := getBatchNumber tx2 + 1
    match m.registry.Get m.initialMigration with
    | none => ([], .error .initialMigrationNotKnown)
    | some mig =>
      match runChangeset m.context m.initialMigration mig.Up tx2 with
      | (tr, .error e) => (tr, .error e)
      | (tr, .ok tx3) => (tr, .ok (insertCompletedMigration tx3 m.initialMigration batch)))

/-- MigrateBatch from migrator.go: one transaction that ensures the table,
locks it, reconciles, and runs the whole pending set under a single
incremented batch number. -/
def Migrator.MigrateBatch (m : Migrator) (db : Db) : Db × List String × Option MErr :=
  runTx db (fun tx0 =>
    let tx1 := ensureMigrationTable m tx0
    let tx2 := maybeLockTable m tx1
    match getMigrationsToRun (completedNames tx2) m.registry.List with
    | .error e => ([], .error e)
    | .ok migrationsToRun =>
      if migrationsToRun.length = 0 then ([], .ok tx2)
      else
        let batch := getBatchNumber tx2 + 1
        runMigrationsUp m.context m.registry batch migrationsToRun tx2)

/-- The discovery transaction of MigrateStepByStep: ensure the table, lock
it, reconcile; commit the (table-creating) transaction and report the
pending set on success, roll back on a reconciliation error. -/
def discoverPending (m : Migrator) (db : Db) : Db × Except MErr (List String) :=
  let tx1 := ensureMigrationTable m db
  let tx2 := maybeLockTable m tx1
  match getMigrationsToRun (completedNames tx2) m.registry.List with
  | .error e => (db, .error e)
  | .ok migrationsToRun => (tx2, .ok migrationsToRun)

/-- The per-migration loop of MigrateStepByStep: each pending migration gets
its own transaction which locks the table, recomputes and increments the
batch number, runs the Up changeset and records the row; the loop stops at
the first failed transaction, leaving earlier commits in place. -/
def stepLoop (m : Migrator) : List String → Db → Db × List String × Option MErr
  | [], db => (db, [], none)
  | migrationName :: rest, db =>
    match runTx db (fun tx0 =>
      let tx1 := maybeLockTable m tx0
      let batch := getBatchNumber tx1 + 1
      match m.registry.Get migrationName with
      | none => ([], .error (.migrationNotKnown [migrationName]))
      | some mig =>
        match runChangeset m.context migrationName mig.Up tx1 with
        | (tr, .error e) => (tr, .error e)
        | (tr, .ok tx2) => (tr, .ok (insertCompletedMigration tx2 migrationName batch))) with
    | (db1, tr1, some e) => (db1, tr1, some e)
    | (db1, tr1, none) =>
      let next := stepLoop m rest db1
      (next.1, tr1 ++ next.2.1, next.2.2)

/-- MigrateStepByStep from migrator.go: the discovery transaction followed
by one transaction per pending migration. -/
def Migrator.MigrateStepByStep (m : Migrator) (db : Db) : Db × List String × Option MErr :=
  match discoverPending m db with
  | (db1, .error e) => (db1, [], some e)
  | (db1, .ok migrationsToRun) =>
    if migrationsToRun.length = 0 then (db1, [], none)
    else stepLoop m migrationsToRun db1

/-- Rollback from migrator.go: one transaction that ensures the table, locks
it, re-validates that every applied name is registered, reads the current
maximum batch number, fetches that batch's names (by descending id), sorts
them ascending and runs each Down changeset, deleting its row. -/
def Migrator.Rollback (m : Migrator) (db : Db) : Db × List String × Option MErr :=
  runTx db (fun tx0 =>
    let tx1 := ensureMigrationTable m tx0
    let tx2 := maybeLockTable m tx1
    let d := difference (completedNames tx2) m.registry.List
    if d.1.length > 0 then ([], .error (.migrationNotKnown d.1))
    else
      let batch := getBatchNumber tx2
      let migrationsToRun := getMigrationsInBatch tx2 batch
      if migrationsToRun.length = 0 then ([], .ok tx2)
      else runMigrationsDown m.context m.registry (sortStrings migrationsToRun) tx2)

/-- DefaultInitialMigrationName from migrator.go. -/
def DefaultInitialMigrationName : String := "000000000000_init"

/-- DefaultMigrator from migrator.go, restricted to the modelled fields:
locking on, verbosity 0, the default initial-migration name, an empty
registry and the default (Postgres) context. -/
def DefaultMigrator : Migrator :=
  { registry := ⟨[], []⟩,
    initialMigration := DefaultInitialMigrationName,
    explicitLock := true,
    verbosity := 0,
    context := ⟨.Postgres⟩ }

/-- A MigratorOpt: a configuration step which may fail. -/
abbrev MigratorOpt := Migrator → Except MErr Migrator

/-- WithVerbosity from migrator.go: rejected with ErrInvalidVerbosity when
the current verbosity is negative, otherwise stores the (unsigned) level. -/
def WithVerbosity (verbosity : Nat) : MigratorOpt := fun x =>
  if x.verbosity < 0 then .error (.invalidVerbosity x.verbosity)
  else .ok { x with verbosity := (verbosity : Int) }

/-- WithQuiet from migrator.go: rejected with ErrInvalidVerbosity when the
current verbosity is positive, otherwise stores int(quiet) - note that the
stored value is the non-negative int(quiet), not its negation. -/
def WithQuiet (quiet : Nat) : MigratorOpt := fun x =>
  if x.verbosity > 0 then .error (.invalidVerbosity x.verbosity)
  else .ok { x with verbosity := (quiet : Int) }

/-- The option loop of NewMigrator: apply each option in order, stopping at
the first error. -/
def applyOpts : List MigratorOpt → Migrator → Except MErr Migrator
  | [], m => .ok m
  | opt :: rest, m =>
    match opt m with
    | .error e => .error e
    | .ok m1 => applyOpts rest m1

/-- NewMigrator from migrator.go, for the modelled configuration: options
applied over DefaultMigrator. The post-processing steps (logger, context and
working-directory defaults) configure only the excluded collaborators. -/
def NewMigrator (opts : List MigratorOpt) : Except MErr Migrator :=
  applyOpts opts DefaultMigrator

/-- C9 evaluated where it fails: requesting quiet 3 and then verbosity 2,
both non-zero, does not fail with ErrInvalidVerbosity - construction
succeeds and yields verbosity 2, because WithQuiet stores +quiet into the
verbosity field, so the guard of WithVerbosity (verbosity below zero) can
never fire. The opposite order does fail, as documented. -/
theorem C9_quiet_then_verbosity_succeeds :
    NewMigrator [WithQuiet 3, WithVerbosity 2]
      = .ok { DefaultMigrator with verbosity := 2 } ∧
    NewMigrator [WithVerbosity 2, WithQuiet 3]
      = .error (.invalidVerbosity 2) := by
  constructor
  · rfl
  · rfl

/-- An Up or Down changeset of the accepted one-argument shape that always
succeeds, used as a concrete fixture. -/
def fnOk : MigFn := .txOnly (fun u => .ok u)

/-- A changeset of the accepted one-argument shape that always fails. -/
def fnFail : MigFn := .txOnly (fun _ => .error "boom")

/-- A fixture migration with the given name and succeeding changesets. -/
def migOk (name : String) : migration := ⟨name, fnOk, fnOk⟩

/-- A fixture migration whose Up changeset fails. -/
def migUpFail (name : String) : migration := ⟨name, fnFail, fnOk⟩

/-- C6 evaluated where it fails: From does not clear the destination map.
Copying a registry holding only a-entry into a registry holding only
w-entry leaves the destination map with both keys while the name list holds
only a, so the map and the list are out of sync and the map does not
contain exactly the entries of the source. This contradicts From's own doc
comment, which promises that migrations already in the registry are thrown
away. -/
theorem C6_from_keeps_stale_entries :
    ((Registry.From ⟨[("w", migOk "w")], ["w"]⟩ ⟨[("a", migOk "a")], ["a"]⟩).allMigrations.map
        Prod.fst = ["w", "a"]) ∧
    (Registry.From ⟨[("w", migOk "w")], ["w"]⟩ ⟨[("a", migOk "a")], ["a"]⟩).migrationNames
        = ["a"] ∧
    ¬ (∀ k ∈ (Registry.From ⟨[("w", migOk "w")], ["w"]⟩
          ⟨[("a", migOk "a")], ["a"]⟩).allMigrations.map Prod.fst,
        k ∈ (Registry.From ⟨[("w", migOk "w")], ["w"]⟩
          ⟨[("a", migOk "a")], ["a"]⟩).migrationNames) := by
  refine ⟨rfl, rfl, ?_⟩
  intro h
  have hw : ("w" : String) ∈ (Registry.From ⟨[("w", migOk "w")], ["w"]⟩
      ⟨[("a", migOk "a")], ["a"]⟩).allMigrations.map Prod.fst := by
    rw [show (Registry.From ⟨[("w", migOk "w")], ["w"]⟩
        ⟨[("a", migOk "a")], ["a"]⟩).allMigrations.map Prod.fst = ["w", "a"] from rfl]
    exact List.mem_cons_self _ _
  have := h "w" hw
  rw [show (Registry.From ⟨[("w", migOk "w")], ["w"]⟩
      ⟨[("a", migOk "a")], ["a"]⟩).migrationNames = ["a"] from rfl] at this
  simp at this

/-- C8: registering a name that is already present, with changesets passing
the shape validation, fails with ErrMigrationAlreadyExists and returns the
registry unchanged, so Count and List are unaffected by the failed call. -/
theorem C8_register_duplicate (r : Registry) (n : String) (up down : MigFn)
    (hdup : (r.allMigrations.lookup n).isSome = true)
    (hup : checkAllowedMigrationFunctions up = .ok ())
    (hdown : checkAllowedMigrationFunctions down = .ok ()) :
    Registry.Register r n up down = (.error (.migrationAlreadyExists n), r) ∧
    (Registry.Register r n up down).2.Count = r.Count ∧
    (Registry.Register r n up down).2.List = r.List := by
  have he : Registry.Register r n up down = (.error (.migrationAlreadyExists n), r) := by
    unfold Registry.Register
    rw [hup, hdown, if_pos hdup]
  exact ⟨he, by rw [he], by rw [he]⟩

/-- C8 at a concrete input: a registry already holding the name a rejects a
second registration of a with valid changesets and is left unchanged. -/
theorem C8_register_duplicate_witness :
    ((⟨[("a", migOk "a")], ["a"]⟩ : Registry).allMigrations.lookup "a").isSome = true ∧
    checkAllowedMigrationFunctions fnOk = .ok () ∧
    (Registry.Register ⟨[("a", migOk "a")], ["a"]⟩ "a" fnOk fnOk
        = (.error (.migrationAlreadyExists "a"), ⟨[("a", migOk "a")], ["a"]⟩) ∧
      (Registry.Register ⟨[("a", migOk "a")], ["a"]⟩ "a" fnOk fnOk).2.Count
        = (⟨[("a", migOk "a")], ["a"]⟩ : Registry).Count ∧
      (Registry.Register ⟨[("a", migOk "a")], ["a"]⟩ "a" fnOk fnOk).2.List
        = (⟨[("a", migOk "a")], ["a"]⟩ : Registry).List) :=
  ⟨rfl, rfl, C8_register_duplicate ⟨[("a", migOk "a")], ["a"]⟩ "a" fnOk fnOk rfl rfl rfl⟩

theorem getMigrationsToRun_error (a b : List String)
    (h : (difference a b).1 ≠ []) :
    getMigrationsToRun a b = .error (.migrationNotKnown (difference a b).1) := by
  have hlen : (difference a b).1.length > 0 := List.length_pos.mpr h
  have he : getMigrationsToRun a b
      = (if (difference a b).1.length > 0 then
           Except.error (MErr.migrationNotKnown (difference a b).1)
         else if (difference a b).2.2.length > 0 then
           Except.ok (sortStrings (difference a b).2.2)
         else Except.ok (difference a b).2.2) := rfl
  rw [he, if_pos hlen]

/-- A Migrator whose registry knows only the initial migration, and a
tracking table holding a row named Z that is not registered. -/
def mC2 : Migrator :=
  { DefaultMigrator with
    registry := ⟨[(DefaultInitialMigrationName, migOk DefaultInitialMigrationName)],
                 [DefaultInitialMigrationName]⟩ }

/-- A tracking table holding an applied row Z with no registered
counterpart. -/
def dbC2 : Db := { tableExists := true, rows := [⟨1, "Z", 5⟩], nextId := 2, user := 0 }

/-- C2 evaluated where it fails: Init performs no reconciliation, so with an
applied row Z unknown to the registry it does not fail with
ErrMigrationNotKnown - it runs the initial migration's changeset and writes
a new tracking row. -/
theorem C2_init_ignores_unknown :
    (Migrator.Init mC2 dbC2).2.2 = none ∧
    (Migrator.Init mC2 dbC2).2.1 = [DefaultInitialMigrationName] ∧
    (Migrator.Init mC2 dbC2).1.rows
      = [⟨1, "Z", 5⟩, ⟨2, DefaultInitialMigrationName, 6⟩] :=
  ⟨rfl, rfl, rfl⟩

/-- C2 for the three reconciling operations: whenever the tracking table
contains a name with no Registry entry, MigrateBatch, MigrateStepByStep and
Rollback each fail with ErrMigrationNotKnown carrying the unknown names,
with the database state unchanged and no changeset invoked (empty trace). -/
theorem C2_unknown_halts (m : Migrator) (db : Db)
    (hmiss : (difference (completedNames db) m.registry.List).1 ≠ []) :
    Migrator.MigrateBatch m db
      = (db, [], some (.migrationNotKnown (difference (completedNames db) m.registry.List).1)) ∧
    Migrator.MigrateStepByStep m db
      = (db, [], some (.migrationNotKnown (difference (completedNames db) m.registry.List).1)) ∧
    Migrator.Rollback m db
      = (db, [], some (.migrationNotKnown (difference (completedNames db) m.registry.List).1)) := by
  have herr := getMigrationsToRun_error (completedNames db) m.registry.List hmiss
  have herr2 : getMigrationsToRun (completedNames { db with tableExists := true })
      m.registry.List
      = Except.error (MErr.migrationNotKnown
          (difference (completedNames db) m.registry.List).1) := herr
  have hlen2 : (difference (completedNames { db with tableExists := true })
      m.registry.List).1.length > 0 := List.length_pos.mpr hmiss
  refine ⟨?_, ?_, ?_⟩
  · simp only [Migrator.MigrateBatch, runTx, ensureMigrationTable, maybeLockTable, herr2]
  · simp only [Migrator.MigrateStepByStep, discoverPending, ensureMigrationTable,
      maybeLockTable, herr2]
  · simp only [Migrator.Rollback, runTx, ensureMigrationTable, maybeLockTable]
    rw [if_pos hlen2]
    rfl

/-- A Migrator registering only a, for the C2 witness. -/
def mC2w : Migrator := { DefaultMigrator with registry := ⟨[("a", migOk "a")], ["a"]⟩ }

/-- A tracking table holding only the unknown row Z, for the C2 witness. -/
def dbC2w : Db := { tableExists := true, rows := [⟨1, "Z", 1⟩], nextId := 2, user := 0 }

/-- C2 at a concrete input: with applied row Z unknown to a registry knowing
only a, all three reconciling operations fail with ErrMigrationNotKnown on
the untouched database without running any changeset. -/
theorem C2_unknown_halts_witness :
    (difference (completedNames dbC2w) mC2w.registry.List).1 ≠ [] ∧
    (Migrator.MigrateBatch mC2w dbC2w
       = (dbC2w, [], some (.migrationNotKnown
           (difference (completedNames dbC2w) mC2w.registry.List).1)) ∧
     Migrator.MigrateStepByStep mC2w dbC2w
       = (dbC2w, [], some (.migrationNotKnown
           (difference (completedNames dbC2w) mC2w.registry.List).1)) ∧
     Migrator.Rollback mC2w dbC2w
       = (dbC2w, [], some (.migrationNotKnown
           (difference (completedNames dbC2w) mC2w.registry.List).1))) :=
  ⟨by decide, C2_unknown_halts mC2w dbC2w (by decide)⟩

/-- The tracking rows a successful batch writes: one row per name, ids
counting up from startId, all sharing one batch number. -/
def mkRows (startId : Nat) (names : List String) (batch : Int) : List Row :=
  match names with
  | [] => []
  | n :: rest => ⟨startId, n, batch⟩ :: mkRows (startId + 1) rest batch

theorem runChangeset_ok (cx : Context) (name : String) (fn : MigFn) (db : Db)
    (tr : List String) (db1 : Db) (h : runChangeset cx name fn db = (tr, .ok db1)) :
    db1.rows = db.rows ∧ db1.nextId = db.nextId ∧ db1.tableExists = db.tableExists ∧
    tr = [name] := by
  cases fn with
  | nullFn => simp [runChangeset] at h
  | badSig t => simp [runChangeset] at h
  | txOnly f =>
    simp only [runChangeset] at h
    cases hf : f db.user with
    | ok u =>
      rw [hf] at h
      obtain ⟨h1, h2⟩ := Prod.mk.injEq .. ▸ h
      obtain rfl := Except.ok.inj h2
      exact ⟨rfl, rfl, rfl, h1.symm⟩
    | error msg => rw [hf] at h; simp at h
  | txCtx f =>
    simp only [runChangeset] at h
    cases hf : f db.user cx with
    | ok u =>
      rw [hf] at h
      obtain ⟨h1, h2⟩ := Prod.mk.injEq .. ▸ h
      obtain rfl := Except.ok.inj h2
      exact ⟨rfl, rfl, rfl, h1.symm⟩
    | error msg => rw [hf] at h; simp at h

theorem runMigrationsUp_ok (cx : Context) (reg : Registry) (batch : Int) :
    ∀ (names : List String) (db : Db) (tr : List String) (db2 : Db),
      runMigrationsUp cx reg batch names db = (tr, .ok db2) →
      db2.rows = db.rows ++ mkRows db.nextId names batch ∧
      db2.nextId = db.nextId + names.length ∧
      db2.tableExists = db.tableExists ∧ tr = names := by
  intro names
  induction names with
  | nil =>
    intro db tr db2 h
    simp only [runMigrationsUp] at h
    obtain ⟨h1, h2⟩ := Prod.mk.injEq .. ▸ h
    obtain rfl := Except.ok.inj h2
    simp [mkRows, h1.symm]
  | cons n rest ih =>
    intro db tr db2 h
    simp only [runMigrationsUp] at h
    split at h
    · simp at h
    · rename_i mig hget
      split at h
      · simp at h
      · rename_i tr1 db1 hrun
        cases hnext : runMigrationsUp cx reg batch rest (insertCompletedMigration db1 n batch) with
        | mk tr2 res2 =>
          rw [hnext] at h
          cases res2 with
          | error e => simp at h
          | ok db3 =>
            simp only [Prod.mk.injEq, Except.ok.injEq] at h
            obtain ⟨htr, hdb⟩ := h
            obtain ⟨hr, hn, hte, htr1⟩ := runChangeset_ok cx n mig.Up db tr1 db1 hrun
            obtain ⟨ih1, ih2, ih3, ih4⟩ := ih (insertCompletedMigration db1 n batch) tr2 db3 hnext
            subst hdb
            refine ⟨?_, ?_, ?_, ?_⟩
            · rw [ih1]
              simp [insertCompletedMigration, hr, hn, mkRows, List.append_assoc]
            · rw [ih2]
              simp [insertCompletedMigration, hn, List.length_cons]
              omega
            · rw [ih3]
              simp [insertCompletedMigration, hte]
            · rw [← htr, htr1, ih4]
              rfl

/-- C3: MigrateBatch is atomic. If the reconciled pending set is the
non-empty list pending, then on any failure inside the transaction the
database is exactly the original state (no tracking row of the batch, nor
any changeset effect, is persisted), and on success the tracking table is
extended by exactly one row per pending migration, in order, all carrying
the single batch number max+1, with every pending changeset having run. -/
theorem C3_migrateBatch_atomic (m : Migrator) (db : Db) (pending : List String)
    (hp : getMigrationsToRun (completedNames db) m.registry.List = .ok pending)
    (hn : pending ≠ []) :
    ((Migrator.MigrateBatch m db).2.2.isSome = true → (Migrator.MigrateBatch m db).1 = db) ∧
    ((Migrator.MigrateBatch m db).2.2 = none →
       (Migrator.MigrateBatch m db).1.rows
         = db.rows ++ mkRows db.nextId pending (getBatchNumber db + 1) ∧
       (Migrator.MigrateBatch m db).2.1 = pending) := by
  have hp2 : getMigrationsToRun (completedNames { db with tableExists := true })
      m.registry.List = .ok pending := hp
  have hlen : ¬ (pending.length = 0) := by
    intro h0
    exact hn (List.length_eq_zero.mp h0)
  have hstep : Migrator.MigrateBatch m db
      = (match (match getMigrationsToRun (completedNames { db with tableExists := true })
              m.registry.List with
          | Except.error e => ([], Except.error e)
          | Except.ok migrationsToRun =>
            if migrationsToRun.length = 0 then ([], Except.ok { db with tableExists := true })
            else
              runMigrationsUp m.context m.registry
                (getBatchNumber { db with tableExists := true } + 1) migrationsToRun
                { db with tableExists := true }) with
         | (tr, Except.ok db2) => (db2, tr, none)
         | (tr, Except.error e) => (db, tr, some e)) := rfl
  rw [hstep]
  simp only [hp2]
  rw [if_neg hlen]
  cases hrun : runMigrationsUp m.context m.registry
      (getBatchNumber { db with tableExists := true } + 1) pending
      { db with tableExists := true } with
  | mk tr res =>
    cases res with
    | error e =>
      refine ⟨fun _ => rfl, fun hc => ?_⟩
      simp at hc
    | ok dbf =>
      obtain ⟨h1, h2, h3, h4⟩ := runMigrationsUp_ok m.context m.registry
        (getBatchNumber { db with tableExists := true } + 1) pending
        { db with tableExists := true } tr dbf hrun
      refine ⟨fun hc => by simp at hc, fun _ => ⟨?_, h4⟩⟩
      rw [h1]
      rfl

/-- A Migrator registering b then a with succeeding changesets, for the C3
witness. -/
def mC3 : Migrator :=
  { DefaultMigrator with registry := ⟨[("b", migOk "b"), ("a", migOk "a")], ["b", "a"]⟩ }

/-- An empty database, for the C3 witness. -/
def dbC3 : Db := { tableExists := false, rows := [], nextId := 1, user := 0 }

/-- C3 at a concrete input: with pending set a, b on an empty table, the
batch succeeds and writes rows (1, a, 1) and (2, b, 1), both in batch 1. -/
theorem C3_migrateBatch_atomic_witness :
    (getMigrationsToRun (completedNames dbC3) mC3.registry.List = .ok ["a", "b"] ∧
     (["a", "b"] : List String) ≠ []) ∧
    (((Migrator.MigrateBatch mC3 dbC3).2.2.isSome = true →
        (Migrator.MigrateBatch mC3 dbC3).1 = dbC3) ∧
     ((Migrator.MigrateBatch mC3 dbC3).2.2 = none →
        (Migrator.MigrateBatch mC3 dbC3).1.rows
          = dbC3.rows ++ mkRows dbC3.nextId ["a", "b"] (getBatchNumber dbC3 + 1) ∧
        (Migrator.MigrateBatch mC3 dbC3).2.1 = ["a", "b"])) :=
  ⟨⟨rfl, by decide⟩, C3_migrateBatch_atomic mC3 dbC3 ["a", "b"] rfl (by decide)⟩

/-- The tracking rows a successful step-by-step run writes: one row per
name, ids counting up from startId, each row in its own batch, the batch
numbers counting up from baseBatch + 1. -/
def stepRows (startId : Nat) (baseBatch : Int) : List String → List Row
  | [] => []
  | n :: rest => ⟨startId, n, baseBatch + 1⟩ :: stepRows (startId + 1) (baseBatch + 1) rest

theorem getBatchNumber_congr (db1 db2 : Db) (h : db1.rows = db2.rows) :
    getBatchNumber db1 = getBatchNumber db2 := by
  simp [getBatchNumber, h]

theorem getBatchNumber_insert (db : Db) (n : String) :
    getBatchNumber (insertCompletedMigration db n (getBatchNumber db + 1))
      = getBatchNumber db + 1 := by
  cases hrows : db.rows with
  | nil => simp [getBatchNumber, insertCompletedMigration, hrows]
  | cons r rs =>
    have hB : getBatchNumber db = (rs.map Row.batch).foldl max r.batch := by
      simp [getBatchNumber, hrows]
    simp only [getBatchNumber, insertCompletedMigration, hrows]
    rw [List.map_append, List.map_cons]
    simp only [List.map_cons, List.map_nil, List.cons_append]
    rw [List.foldl_append]
    simp only [List.foldl_cons, List.foldl_nil]
    rw [← hB]
    omega

theorem runChangeset_trace (cx : Context) (name : String) (fn : MigFn) (db : Db) :
    (runChangeset cx name fn db).1 = [] ∨ (runChangeset cx name fn db).1 = [name] := by
  cases fn <;> simp [runChangeset]

theorem stepLoop_spec (m : Migrator) : ∀ (names : List String) (db : Db),
    ((stepLoop m names db).2.2 = none →
       (stepLoop m names db).1.rows
         = db.rows ++ stepRows db.nextId (getBatchNumber db) names ∧
       (stepLoop m names db).2.1 = names ∧
       (stepLoop m names db).1.nextId = db.nextId + names.length) ∧
    (∀ e, (stepLoop m names db).2.2 = some e →
       ∃ k, k < names.length ∧
         (stepLoop m names db).1.rows
           = db.rows ++ stepRows db.nextId (getBatchNumber db) (names.take k) ∧
         ((stepLoop m names db).2.1 = names.take k ∨
          (stepLoop m names db).2.1 = names.take (k + 1))) := by
  intro names
  induction names with
  | nil =>
    intro db
    constructor
    · intro _
      refine ⟨by simp [stepLoop, stepRows], by simp [stepLoop], by simp [stepLoop]⟩
    · intro e he
      simp [stepLoop] at he
  | cons n rest ih =>
    intro db
    have hstep : stepLoop m (n :: rest) db
        = (match (match (match m.registry.Get n with
              | none => (([] : List String), Except.error (MErr.migrationNotKnown [n]))
              | some mig =>
                match runChangeset m.context n mig.Up db with
                | (tr, Except.error e) => (tr, Except.error e)
                | (tr, Except.ok tx2) =>
                  (tr, Except.ok (insertCompletedMigration tx2 n (getBatchNumber db + 1)))) with
            | (tr, Except.ok db2) => (db2, tr, (none : Option MErr))
            | (tr, Except.error e) => (db, tr, some e)) with
          | (db1, tr1, some e) => (db1, tr1, some e)
          | (db1, tr1, none) =>
            ((stepLoop m rest db1).1, tr1 ++ (stepLoop m rest db1).2.1,
             (stepLoop m rest db1).2.2)) := rfl
    cases hget : m.registry.Get n with
    | none =>
      have hval : stepLoop m (n :: rest) db = (db, [], some (MErr.migrationNotKnown [n])) := by
        simp only [stepLoop, runTx, maybeLockTable, hget]
      rw [hval]
      constructor
      · intro hc; simp at hc
      · intro e _
        refine ⟨0, by simp, by simp [stepRows], Or.inl rfl⟩
    | some mig =>
      cases hrun : runChangeset m.context n mig.Up db with
      | mk tr1 res =>
        cases res with
        | error e1 =>
          have hval : stepLoop m (n :: rest) db = (db, tr1, some e1) := by
            simp only [stepLoop, runTx, maybeLockTable, hget, hrun]
          rw [hval]
          have htr1 : tr1 = [] ∨ tr1 = [n] := by
            have := runChangeset_trace m.context n mig.Up db
            rw [hrun] at this
            exact this
          constructor
          · intro hc; simp at hc
          · intro e _
            refine ⟨0, by simp, by simp [stepRows], ?_⟩
            rcases htr1 with h | h
            · exact Or.inl (by simp [h])
            · exact Or.inr (by simp [h])
        | ok db1 =>
          have hval : stepLoop m (n :: rest) db
              = ((stepLoop m rest (insertCompletedMigration db1 n (getBatchNumber db + 1))).1,
                 tr1 ++ (stepLoop m rest
                   (insertCompletedMigration db1 n (getBatchNumber db + 1))).2.1,
                 (stepLoop m rest
                   (insertCompletedMigration db1 n (getBatchNumber db + 1))).2.2) := by
            simp only [stepLoop, runTx, maybeLockTable, hget, hrun]
          rw [hval]
          obtain ⟨hr, hn, hte, htr1⟩ := runChangeset_ok m.context n mig.Up db tr1 db1 hrun
          have hBcongr : getBatchNumber db = getBatchNumber db1 :=
            (getBatchNumber_congr db1 db hr).symm
          have hBI : getBatchNumber
              (insertCompletedMigration db1 n (getBatchNumber db + 1))
              = getBatchNumber db + 1 := by
            rw [hBcongr, getBatchNumber_insert db1 n]
          have hrowsI : (insertCompletedMigration db1 n (getBatchNumber db + 1)).rows
              = db.rows ++ [⟨db.nextId, n, getBatchNumber db + 1⟩] := by
            simp [insertCompletedMigration, hr, hn]
          have hnextI : (insertCompletedMigration db1 n (getBatchNumber db + 1)).nextId
              = db.nextId + 1 := by
            simp [insertCompletedMigration, hn]
          obtain ⟨ihok, iherr⟩ := ih (insertCompletedMigration db1 n (getBatchNumber db + 1))
          constructor
          · intro hnone
            obtain ⟨i1, i2, i3⟩ := ihok hnone
            refine ⟨?_, ?_, ?_⟩
            · rw [i1, hrowsI, hnextI, hBI]
              simp [stepRows, List.append_assoc]
            · rw [i2, htr1]
              rfl
            · rw [i3, hnextI]
              simp [List.length_cons]
              omega
          · intro e he
            obtain ⟨k, hk, hkrows, hktr⟩ := iherr e he
            refine ⟨k + 1, by simp; omega, ?_, ?_⟩
            · rw [hkrows, hrowsI, hnextI, hBI]
              simp [stepRows, List.append_assoc, List.take_succ_cons]
            · rcases hktr with h | h
              · exact Or.inl (by rw [h, htr1]; simp [List.take_succ_cons])
              · exact Or.inr (by rw [h, htr1]; simp [List.take_succ_cons])

/-- C4: MigrateStepByStep is incremental. With reconciled pending set
pending, a fully successful run appends one row per migration in order,
each in its own freshly recomputed batch (base batch plus position); if the
run fails, there is a k below the pending count such that exactly the first
k migrations are persisted (each with its own incrementing batch number),
no later migration is persisted, and the invoked changesets are exactly the
first k, possibly followed by the failing one - migrations after the
failure point never run. -/
theorem C4_stepByStep_incremental (m : Migrator) (db : Db) (pending : List String)
    (hp : getMigrationsToRun (completedNames db) m.registry.List = .ok pending) :
    ((Migrator.MigrateStepByStep m db).2.2 = none →
       (Migrator.MigrateStepByStep m db).1.rows
         = db.rows ++ stepRows db.nextId (getBatchNumber db) pending ∧
       (Migrator.MigrateStepByStep m db).2.1 = pending) ∧
    (∀ e, (Migrator.MigrateStepByStep m db).2.2 = some e →
       ∃ k, k < pending.length ∧
         (Migrator.MigrateStepByStep m db).1.rows
           = db.rows ++ stepRows db.nextId (getBatchNumber db) (pending.take k) ∧
         ((Migrator.MigrateStepByStep m db).2.1 = pending.take k ∨
          (Migrator.MigrateStepByStep m db).2.1 = pending.take (k + 1))) := by
  have hp2 : getMigrationsToRun (completedNames { db with tableExists := true })
      m.registry.List = .ok pending := hp
  have hd : discoverPending m db = ({ db with tableExists := true }, .ok pending) := by
    simp only [discoverPending, ensureMigrationTable, maybeLockTable, hp2]
  by_cases hpn : pending.length = 0
  · have hnil : pending = [] := List.length_eq_zero.mp hpn
    subst hnil
    have hres : Migrator.MigrateStepByStep m db = ({ db with tableExists := true }, [], none) := by
      simp [Migrator.MigrateStepByStep, hd]
    rw [hres]
    constructor
    · intro _
      exact ⟨by simp [stepRows], rfl⟩
    · intro e he
      simp at he
  · have hres : Migrator.MigrateStepByStep m db
        = stepLoop m pending { db with tableExists := true } := by
      simp [Migrator.MigrateStepByStep, hd, hpn]
    rw [hres]
    have hspec := stepLoop_spec m pending { db with tableExists := true }
    have hrows : ({ db with tableExists := true } : Db).rows = db.rows := rfl
    have hnext : ({ db with tableExists := true } : Db).nextId = db.nextId := rfl
    have hB : getBatchNumber { db with tableExists := true } = getBatchNumber db := rfl
    rw [hrows, hnext, hB] at hspec
    exact ⟨fun h => ⟨(hspec.1 h).1, (hspec.1 h).2.1⟩, hspec.2⟩

/-- A Migrator registering a, b, c where the Up changeset of b fails, for
the C4 witness. -/
def mC4 : Migrator :=
  { DefaultMigrator with
    registry := ⟨[("a", migOk "a"), ("b", migUpFail "b"), ("c", migOk "c")],
                 ["a", "b", "c"]⟩ }

/-- C4 at a concrete input: pending a, b, c on an empty table; a commits in
its own batch 1, b fails, c never runs, and there is a cut point k with
exactly the first k migrations persisted. -/
theorem C4_stepByStep_incremental_witness :
    getMigrationsToRun (completedNames dbC3) mC4.registry.List = .ok ["a", "b", "c"] ∧
    (((Migrator.MigrateStepByStep mC4 dbC3).2.2 = none →
        (Migrator.MigrateStepByStep mC4 dbC3).1.rows
          = dbC3.rows ++ stepRows dbC3.nextId (getBatchNumber dbC3) ["a", "b", "c"] ∧
        (Migrator.MigrateStepByStep mC4 dbC3).2.1 = ["a", "b", "c"]) ∧
     (∀ e, (Migrator.MigrateStepByStep mC4 dbC3).2.2 = some e →
        ∃ k, k < (["a", "b", "c"] : List String).length ∧
          (Migrator.MigrateStepByStep mC4 dbC3).1.rows
            = dbC3.rows ++ stepRows dbC3.nextId (getBatchNumber dbC3)
                ((["a", "b", "c"] : List String).take k) ∧
          ((Migrator.MigrateStepByStep mC4 dbC3).2.1
              = (["a", "b", "c"] : List String).take k ∨
           (Migrator.MigrateStepByStep mC4 dbC3).2.1
              = (["a", "b", "c"] : List String).take (k + 1)))) :=
  ⟨rfl, C4_stepByStep_incremental mC4 dbC3 ["a", "b", "c"] rfl⟩

/-- Sequential deletion of tracking rows, one name at a time, as the
rollback loop performs it. -/
def removeAll (names : List String) (rows : List Row) : List Row :=
  names.foldl (fun rs n => rs.filter (fun r => !(r.name == n))) rows

theorem runMigrationsDown_ok (cx : Context) (reg : Registry) :
    ∀ (names : List String) (db : Db) (tr : List String) (db2 : Db),
      runMigrationsDown cx reg names db = (tr, .ok db2) →
      tr = names ∧ db2.rows = removeAll names db.rows := by
  intro names
  induction names with
  | nil =>
    intro db tr db2 h
    simp only [runMigrationsDown] at h
    obtain ⟨h1, h2⟩ := Prod.mk.injEq .. ▸ h
    obtain rfl := Except.ok.inj h2
    exact ⟨h1.symm, by simp [removeAll]⟩
  | cons n rest ih =>
    intro db tr db2 h
    simp only [runMigrationsDown] at h
    split at h
    · simp at h
    · rename_i mig hget
      split at h
      · simp at h
      · rename_i tr1 db1 hrun
        cases hnext : runMigrationsDown cx reg rest (removeRolledbackMigration db1 n) with
        | mk tr2 res2 =>
          rw [hnext] at h
          cases res2 with
          | error e => simp at h
          | ok db3 =>
            simp only [Prod.mk.injEq, Except.ok.injEq] at h
            obtain ⟨htr, hdb⟩ := h
            obtain ⟨hr, hn, hte, htr1⟩ := runChangeset_ok cx n mig.Down db tr1 db1 hrun
            obtain ⟨ih1, ih2⟩ := ih (removeRolledbackMigration db1 n) tr2 db3 hnext
            subst hdb
            constructor
            · rw [← htr, htr1, ih1]
              rfl
            · rw [ih2]
              simp [removeAll, removeRolledbackMigration, hr]

theorem removeAll_eq_filter :
    ∀ (names : List String) (rows : List Row),
      removeAll names rows = rows.filter (fun r => !(names.contains r.name)) := by
  intro names
  induction names with
  | nil =>
    intro rows
    simp [removeAll]
  | cons n rest ih =>
    intro rows
    have hstep : removeAll (n :: rest) rows
        = removeAll rest (rows.filter (fun r => !(r.name == n))) := rfl
    rw [hstep, ih, List.filter_filter]
    apply List.filter_congr
    intro r _
    simp only [List.contains_cons, Bool.not_or, Bool.and_comm]

theorem batch_names_contains (rows : List Row) (B : Int)
    (hnodup : (rows.map Row.name).Nodup) (r : Row) (hr : r ∈ rows) :
    ((rows.filter (fun x => x.batch == B)).map Row.name).contains r.name
      = (r.batch == B) := by
  cases hb : (r.batch == B) with
  | true =>
    apply (contains_true_iff _ _).mpr
    exact List.mem_map.mpr ⟨r, List.mem_filter.mpr ⟨hr, hb⟩, rfl⟩
  | false =>
    by_contra hc
    rw [Bool.not_eq_false] at hc
    obtain ⟨r2, hr2, hname⟩ := List.mem_map.mp ((contains_true_iff _ _).mp hc)
    obtain ⟨hr2m, hb2⟩ := List.mem_filter.mp hr2
    have : r2 = r := List.inj_on_of_nodup_map hnodup hr2m hr hname
    rw [this] at hb2
    rw [hb2] at hb
    exact Bool.true_eq_false.mp hb

theorem sortByIdDesc_perm (rows : List Row) : List.Perm (sortByIdDesc rows) rows :=
  List.perm_insertionSort _ rows

theorem contains_congr_perm (l1 l2 : List String) (h : List.Perm l1 l2) (x : String) :
    l1.contains x = l2.contains x := by
  by_cases hm : x ∈ l2
  · have e1 : l1.contains x = true := (contains_true_iff _ _).mpr (h.mem_iff.mpr hm)
    have e2 : l2.contains x = true := (contains_true_iff _ _).mpr hm
    rw [e1, e2]
  · have e1 : ¬ l1.contains x = true :=
      fun hc => hm (h.mem_iff.mp ((contains_true_iff _ _).mp hc))
    have e2 : ¬ l2.contains x = true := fun hc => hm ((contains_true_iff _ _).mp hc)
    rw [Bool.not_eq_true] at e1 e2
    rw [e1, e2]

/-- A Migrator registering only the migration named init, for the C5
counterexample. -/
def mC5 : Migrator := { DefaultMigrator with registry := ⟨[("init", migOk "init")], ["init"]⟩ }

/-- A tracking table holding the same name in two batches, the state two
consecutive Init calls produce. -/
def dbC5 : Db :=
  { tableExists := true, rows := [⟨1, "init", 1⟩, ⟨2, "init", 2⟩], nextId := 3, user := 0 }

/-- C5 evaluated where it fails: rollback deletes tracking rows by name, so
after two Init runs of the same migration (batches 1 and 2), rolling back
the maximum batch 2 also deletes the batch-1 row - a tracking row of
another batch is not left untouched. -/
theorem C5_rollback_deletes_other_batch :
    (Migrator.Rollback mC5 dbC5).2.2 = none ∧
    (Migrator.Rollback mC5 dbC5).1.rows = [] ∧
    (⟨1, "init", 1⟩ : Row) ∈ dbC5.rows ∧
    ((⟨1, "init", 1⟩ : Row) ∈ (Migrator.Rollback mC5 dbC5).1.rows → False) := by
  refine ⟨rfl, rfl, by decide, ?_⟩
  intro hc
  rw [show (Migrator.Rollback mC5 dbC5).1.rows = [] from rfl] at hc
  simp at hc

/-- C5 under the precondition the counterexample forces: when no migration
name occurs in more than one tracking row, a successful Rollback executes
the backward changesets of exactly the migrations of the current maximum
batch, in ascending lexicographic name order, and deletes exactly that
batch's rows, leaving rows of other batches untouched; any failure inside
the single transaction leaves the database exactly as it was. -/
theorem C5_rollback_max_batch (m : Migrator) (db : Db)
    (hnodup : (db.rows.map Row.name).Nodup) :
    ((Migrator.Rollback m db).2.2 = none →
       (Migrator.Rollback m db).2.1
         = sortStrings ((db.rows.filter (fun r => r.batch == getBatchNumber db)).map Row.name) ∧
       (Migrator.Rollback m db).1.rows
         = db.rows.filter (fun r => !(r.batch == getBatchNumber db))) ∧
    ((Migrator.Rollback m db).2.2.isSome = true → (Migrator.Rollback m db).1 = db) := by
  have hstep : Migrator.Rollback m db
      = (match (if (difference (completedNames db) m.registry.List).1.length > 0 then
             (([] : List String),
              Except.error (MErr.migrationNotKnown
                (difference (completedNames db) m.registry.List).1))
           else if (getMigrationsInBatch db (getBatchNumber db)).length = 0 then
             ([], Except.ok { db with tableExists := true })
           else
             runMigrationsDown m.context m.registry
               (sortStrings (getMigrationsInBatch db (getBatchNumber db)))
               { db with tableExists := true }) with
         | (tr, Except.ok db2) => (db2, tr, none)
         | (tr, Except.error e) => (db, tr, some e)) := rfl
  by_cases hmiss : (difference (completedNames db) m.registry.List).1.length > 0
  · rw [hstep, if_pos hmiss]
    exact ⟨fun hc => by simp at hc, fun _ => rfl⟩
  · rw [hstep, if_neg hmiss]
    by_cases hempty : (getMigrationsInBatch db (getBatchNumber db)).length = 0
    · rw [if_pos hempty]
      refine ⟨fun _ => ?_, fun hc => by simp at hc⟩
      have hnil : getMigrationsInBatch db (getBatchNumber db) = [] :=
        List.length_eq_zero.mp hempty
      have hfilnil : db.rows.filter (fun r => r.batch == getBatchNumber db) = [] := by
        have hsortnil : sortByIdDesc (db.rows.filter (fun r => r.batch == getBatchNumber db))
            = [] := List.map_eq_nil_iff.mp hnil
        have hperm := sortByIdDesc_perm (db.rows.filter (fun r => r.batch == getBatchNumber db))
        rw [hsortnil] at hperm
        exact (hperm.symm).eq_nil
      constructor
      · rw [hfilnil]
        rfl
      · show ({ db with tableExists := true } : Db).rows
          = db.rows.filter (fun r => !(r.batch == getBatchNumber db))
        have hall : ∀ r ∈ db.rows, (fun r : Row => !(r.batch == getBatchNumber db)) r = true := by
          intro r hr
          have := List.filter_eq_nil_iff.mp hfilnil r hr
          simp only [Bool.not_eq_true] at this
          simp [this]
        exact (List.filter_eq_self.mpr hall).symm
    · rw [if_neg hempty]
      cases hrun : runMigrationsDown m.context m.registry
          (sortStrings (getMigrationsInBatch db (getBatchNumber db)))
          { db with tableExists := true } with
      | mk tr res =>
        cases res with
        | error e =>
          exact ⟨fun hc => by simp at hc, fun _ => rfl⟩
        | ok dbf =>
          refine ⟨fun _ => ?_, fun hc => by simp at hc⟩
          obtain ⟨htr, hrows⟩ := runMigrationsDown_ok m.context m.registry
            (sortStrings (getMigrationsInBatch db (getBatchNumber db)))
            { db with tableExists := true } tr dbf hrun
          have hpermnames : List.Perm (sortStrings (getMigrationsInBatch db (getBatchNumber db)))
              ((db.rows.filter (fun r => r.batch == getBatchNumber db)).map Row.name) :=
            (sortStrings_perm _).trans
              ((sortByIdDesc_perm (db.rows.filter (fun r => r.batch == getBatchNumber db))).map
                Row.name)
          constructor
          · rw [htr]
            exact sortStrings_congr_perm _ _
              ((sortByIdDesc_perm (db.rows.filter (fun r => r.batch == getBatchNumber db))).map
                Row.name)
          · have hrows2 : dbf.rows
                = removeAll (sortStrings (getMigrationsInBatch db (getBatchNumber db)))
                    db.rows := hrows
            rw [hrows2, removeAll_eq_filter]
            apply List.filter_congr
            intro r hr
            have hc1 : (sortStrings (getMigrationsInBatch db (getBatchNumber db))).contains r.name
                = ((db.rows.filter (fun x => x.batch == getBatchNumber db)).map Row.name).contains
                    r.name :=
              contains_congr_perm _ _ hpermnames r.name
            rw [hc1, batch_names_contains db.rows (getBatchNumber db) hnodup r hr]

/-- A Migrator registering a and b, for the C5 witness. -/
def mC5w : Migrator :=
  { DefaultMigrator with registry := ⟨[("a", migOk "a"), ("b", migOk "b")], ["a", "b"]⟩ }

/-- A tracking table with a and b both in batch 1, with distinct names. -/
def dbC5w : Db :=
  { tableExists := true, rows := [⟨1, "a", 1⟩, ⟨2, "b", 1⟩], nextId := 3, user := 0 }

/-- C5 at a concrete input: with rows a and b in the single batch 1 and
distinct names, a successful rollback runs exactly the backward changesets
of a and b in ascending order and leaves the table empty. -/
theorem C5_rollback_max_batch_witness :
    (dbC5w.rows.map Row.name).Nodup ∧
    (((Migrator.Rollback mC5w dbC5w).2.2 = none →
        (Migrator.Rollback mC5w dbC5w).2.1
          = sortStrings ((dbC5w.rows.filter
              (fun r => r.batch == getBatchNumber dbC5w)).map Row.name) ∧
        (Migrator.Rollback mC5w dbC5w).1.rows
          = dbC5w.rows.filter (fun r => !(r.batch == getBatchNumber dbC5w))) ∧
     ((Migrator.Rollback mC5w dbC5w).2.2.isSome = true →
        (Migrator.Rollback mC5w dbC5w).1 = dbC5w)) :=
  ⟨by decide, C5_rollback_max_batch mC5w dbC5w (by decide)⟩

/-- A Go slice header: backing-array identity, start offset, length and
capacity. -/
structure GoSlice where
  arrId : Nat
  off : Nat
  len : Nat
  cap : Nat
deriving Repr, DecidableEq

/-- The heap of string backing arrays, keyed by array identity; fresh is the
next unused identity. -/
structure Heap where
  arrays : List (Nat × List String)
  fresh : Nat
deriving Repr, DecidableEq

/-- The contents of a backing array (empty when the identity is unknown). -/
def Heap.lookupArr (h : Heap) (id : Nat) : List String :=
  (h.arrays.lookup id).getD []

/-- The elements a slice header denotes in a heap. -/
def readSlice (h : Heap) (s : GoSlice) : List String :=
  ((h.lookupArr s.arrId).drop s.off).take s.len

/-- Replace the contents of a backing array. -/
def Heap.writeArr (h : Heap) (id : Nat) (contents : List String) : Heap :=
  { h with arrays := h.arrays.map (fun p => if p.1 = id then (id, contents) else p) }

/-- Overwrite element i of a slice: a write-through into the backing array. -/
def writeElem (h : Heap) (s : GoSlice) (i : Nat) (v : String) : Heap :=
  h.writeArr s.arrId ((h.lookupArr s.arrId).set (s.off + i) v)

/-- Sort a slice's segment of its backing array in place, as sort.Strings
does. -/
def sortSliceInPlace (h : Heap) (s : GoSlice) : Heap :=
  let a := h.lookupArr s.arrId
  h.writeArr s.arrId
    (a.take s.off ++ sortStrings ((a.drop s.off).take s.len) ++ a.drop (s.off + s.len))

/-- Allocate a fresh backing array with the given contents, returning its
identity. -/
def Heap.alloc (h : Heap) (contents : List String) : Heap × Nat :=
  ({ arrays := h.arrays ++ [(h.fresh, contents)], fresh := h.fresh + 1 }, h.fresh)

/-- A slice header is well formed in a heap when its backing array exists
and its segment lies inside that array. -/
def SliceWF (h : Heap) (s : GoSlice) : Prop :=
  s.arrId ∈ h.arrays.map Prod.fst ∧ s.off + s.len ≤ (h.lookupArr s.arrId).length

instance (h : Heap) (s : GoSlice) : Decidable (SliceWF h s) := by
  unfold SliceWF; infer_instance

/-- Registry at the slice level, for the frame-effect claims: the map is an
association list wrapped in Option to model the nil map, and the name slice
is a heap-allocated Go slice. -/
structure RegistryH where
  allMigrations : Option (List (String × migration))
  names : GoSlice

/-- The entries of the possibly-nil map. -/
def RegistryH.entries (r : RegistryH) : List (String × migration) :=
  r.allMigrations.getD []

/-- Registry.List at the slice level: a nil map yields a fresh empty slice;
otherwise the name slice is resliced in full - the same backing array,
offset and length, not a copy. -/
def RegistryH.List (h : Heap) (r : RegistryH) : Heap × GoSlice :=
  match r.allMigrations with
  | none =>
    let a := h.alloc []
    (a.1, { arrId := a.2, off := 0, len := 0, cap := 0 })
  | some _ => (h, r.names)

/-- ensureCapacity at the slice level: reallocate the name slice into a
fresh array when its capacity is below the requested one (the map branch of
the Go helper changes no observable contents). -/
def ensureCapacityH (h : Heap) (s : GoSlice) (capacity : Nat) : Heap × GoSlice :=
  if s.cap < capacity then
    let a := h.alloc (readSlice h s ++ List.replicate (capacity - s.len) "")
    (a.1, { arrId := a.2, off := 0, len := s.len, cap := capacity })
  else (h, s)

/-- Registry.From at the slice level: nil-initialize the destination map; if
the source map is empty return at once; otherwise ensure capacity (a heap
allocation at most), take over the source's name slice by full reslice, add
the source's entries into the destination map, and sort the (shared) name
slice in place. -/
def RegistryH.From (h : Heap) (r other : RegistryH) : Heap × RegistryH :=
  let rMap := some r.entries
  match other.allMigrations with
  | none => (h, { r with allMigrations := rMap })
  | some oMap =>
    if oMap.length = 0 then (h, { r with allMigrations := rMap })
    else
      let e := ensureCapacityH h r.names oMap.length
      let newNames := { other.names with off := other.names.off }
      let h2 := sortSliceInPlace e.1 newNames
      let newMap := oMap.foldl (fun acc kv => mapInsert acc kv.1 kv.2) r.entries
      (h2, { allMigrations := some newMap, names := newNames })

theorem lookup_append_of_mem (k : Nat) :
    ∀ (l l2 : List (Nat × List String)), k ∈ l.map Prod.fst →
      List.lookup k (l ++ l2) = List.lookup k l := by
  intro l
  induction l with
  | nil => intro l2 h; simp at h
  | cons p rest ih =>
    intro l2 h
    by_cases hk : k = p.1
    · simp [List.lookup, hk]
    · have hmem : k ∈ rest.map Prod.fst := by
        rcases List.mem_map.mp h with ⟨q, hq, hq2⟩
        rcases List.mem_cons.mp hq with rfl | hq3
        · exact absurd hq2.symm hk
        · exact List.mem_map.mpr ⟨q, hq3, hq2⟩
      have hbeq : (k == p.1) = false := by simpa using hk
      simp [List.lookup, hbeq, ih l2 hmem]

theorem lookup_writeArr_self (id : Nat) (c : List String) :
    ∀ (l : List (Nat × List String)), id ∈ l.map Prod.fst →
      List.lookup id (l.map (fun p => if p.1 = id then (id, c) else p)) = some c := by
  intro l
  induction l with
  | nil => intro h; simp at h
  | cons p rest ih =>
    intro h
    simp only [List.map_cons]
    by_cases hk : p.1 = id
    · rw [if_pos hk]
      simp [List.lookup]
    · rw [if_neg hk]
      have hmem : id ∈ rest.map Prod.fst := by
        rcases List.mem_map.mp h with ⟨q, hq, hq2⟩
        rcases List.mem_cons.mp hq with rfl | hq3
        · exact absurd hq2 hk
        · exact List.mem_map.mpr ⟨q, hq3, hq2⟩
      have hbeq : (id == p.1) = false := by
        simp only [beq_eq_false_iff_ne, ne_eq]
        exact fun hc => hk hc.symm
      simp [List.lookup, hbeq, ih hmem]

theorem writeArr_mem_fst (h : Heap) (id : Nat) (c : List String) :
    (h.writeArr id c).arrays.map Prod.fst = h.arrays.map Prod.fst := by
  simp only [Heap.writeArr]
  rw [List.map_map]
  apply List.map_congr_left
  intro p _
  by_cases hk : p.1 = id <;> simp [hk]

theorem lookupArr_writeArr_self (h : Heap) (id : Nat) (c : List String)
    (hmem : id ∈ h.arrays.map Prod.fst) :
    (h.writeArr id c).lookupArr id = c := by
  simp only [Heap.lookupArr, Heap.writeArr]
  rw [lookup_writeArr_self id c h.arrays hmem]
  rfl

theorem drop_set (n : Nat) :
    ∀ (l : List String) (k : Nat) (v : String), (l.set (n + k) v).drop n = (l.drop n).set k v := by
  induction n with
  | zero => intro l k v; simp
  | succ mm ih =>
    intro l k v
    cases l with
    | nil => simp
    | cons x xs =>
      have h : mm + 1 + k = (mm + k) + 1 := by omega
      rw [h]
      show ((x :: xs).set ((mm + k) + 1) v).drop (mm + 1) = (xs.drop mm).set k v
      have h2 : (x :: xs).set ((mm + k) + 1) v = x :: xs.set (mm + k) v := rfl
      rw [h2]
      simpa using ih xs k v

theorem take_set (mm : Nat) :
    ∀ (l : List String) (k : Nat) (v : String), (l.set k v).take mm = (l.take mm).set k v := by
  induction mm with
  | zero => intro l k v; simp
  | succ n ih =>
    intro l k v
    cases l with
    | nil => simp
    | cons x xs =>
      cases k with
      | zero => rfl
      | succ j =>
        show x :: (xs.set j v).take n = x :: (xs.take n).set j v
        rw [ih xs j v]

theorem readSlice_writeElem (h : Heap) (s : GoSlice) (i : Nat) (v : String)
    (hwf : SliceWF h s) :
    readSlice (writeElem h s i v) s = (readSlice h s).set i v := by
  obtain ⟨hmem, hlen⟩ := hwf
  simp only [readSlice, writeElem]
  rw [lookupArr_writeArr_self h s.arrId _ hmem, drop_set, take_set]

theorem length_sortStrings (l : List String) : (sortStrings l).length = l.length :=
  (sortStrings_perm l).length_eq

theorem readSlice_sortSliceInPlace (h : Heap) (s : GoSlice) (hwf : SliceWF h s) :
    readSlice (sortSliceInPlace h s) s = sortStrings (readSlice h s) := by
  obtain ⟨hmem, hlen⟩ := hwf
  have hoff : s.off ≤ (h.lookupArr s.arrId).length := by omega
  simp only [readSlice, sortSliceInPlace]
  rw [lookupArr_writeArr_self h s.arrId _ hmem]
  have hlen1 : ((h.lookupArr s.arrId).take s.off).length = s.off := by
    rw [List.length_take]
    omega
  have hlen2 : (sortStrings (((h.lookupArr s.arrId).drop s.off).take s.len)).length = s.len := by
    rw [length_sortStrings, List.length_take, List.length_drop]
    omega
  have hdrop : List.drop s.off
      (List.take s.off (h.lookupArr s.arrId)
        ++ (sortStrings (List.take s.len (List.drop s.off (h.lookupArr s.arrId)))
            ++ List.drop (s.off + s.len) (h.lookupArr s.arrId)))
      = sortStrings (List.take s.len (List.drop s.off (h.lookupArr s.arrId)))
        ++ List.drop (s.off + s.len) (h.lookupArr s.arrId) := by
    have hx := List.drop_left (List.take s.off (h.lookupArr s.arrId))
      (sortStrings (List.take s.len (List.drop s.off (h.lookupArr s.arrId)))
        ++ List.drop (s.off + s.len) (h.lookupArr s.arrId))
    rwa [hlen1] at hx
  have htake : List.take s.len
      (sortStrings (List.take s.len (List.drop s.off (h.lookupArr s.arrId)))
        ++ List.drop (s.off + s.len) (h.lookupArr s.arrId))
      = sortStrings (List.take s.len (List.drop s.off (h.lookupArr s.arrId))) := by
    have hx := List.take_left (sortStrings (List.take s.len (List.drop s.off (h.lookupArr s.arrId))))
      (List.drop (s.off + s.len) (h.lookupArr s.arrId))
    rwa [hlen2] at hx
  rw [List.append_assoc, hdrop, htake]

theorem ensureCapacityH_preserves (h : Heap) (s0 : GoSlice) (capacity : Nat) (s : GoSlice)
    (hwf : SliceWF h s) :
    (ensureCapacityH h s0 capacity).1.lookupArr s.arrId = h.lookupArr s.arrId ∧
    SliceWF (ensureCapacityH h s0 capacity).1 s := by
  obtain ⟨hmem, hlen⟩ := hwf
  unfold ensureCapacityH
  by_cases hc : s0.cap < capacity
  · rw [if_pos hc]
    have hlook : (h.alloc (readSlice h s0 ++ List.replicate (capacity - s0.len) "")).1.lookupArr
        s.arrId = h.lookupArr s.arrId := by
      simp only [Heap.alloc, Heap.lookupArr]
      rw [lookup_append_of_mem s.arrId h.arrays _ hmem]
    refine ⟨hlook, ?_, ?_⟩
    · simp only [Heap.alloc, List.map_append]
      exact List.mem_append.mpr (Or.inl hmem)
    · rw [hlook]
      exact hlen
  · rw [if_neg hc]
    exact ⟨rfl, hmem, hlen⟩

/-- A heap with one backing array holding b then a, and a registry whose
name slice covers that whole array. -/
def hC7 : Heap := ⟨[(0, ["b", "a"])], 1⟩

/-- A registry that registered b then a (insertion order), names backed by
array 0 of hC7. -/
def rC7 : RegistryH :=
  ⟨some [("b", migOk "b"), ("a", migOk "a")], ⟨0, 0, 2, 2⟩⟩

/-- C7 evaluated where it fails: List returns the registry's own name
slice, not a copy - overwriting element 0 of the returned slice changes the
registry's name list from b, a to z, a. -/
theorem C7_list_mutation_visible :
    readSlice hC7 rC7.names = ["b", "a"] ∧
    (RegistryH.List hC7 rC7).2 = rC7.names ∧
    readSlice (writeElem hC7 (RegistryH.List hC7 rC7).2 0 "z") rC7.names = ["z", "a"] ∧
    (["z", "a"] : List String) ≠ ["b", "a"] :=
  ⟨rfl, rfl, rfl, by decide⟩

/-- C7 as the code actually behaves: for a registry whose map is non-nil,
List leaves the heap untouched and returns the registry's own name slice
header (same backing array, offset and length - the elements read equal the
name list, in insertion order), and overwriting element i of the returned
slice writes through to the registry's own name list at position i. -/
theorem C7_list_aliases (h : Heap) (r : RegistryH) (mp : List (String × migration))
    (i : Nat) (v : String) (hsome : r.allMigrations = some mp) (hwf : SliceWF h r.names) :
    (RegistryH.List h r).1 = h ∧
    (RegistryH.List h r).2 = r.names ∧
    readSlice h (RegistryH.List h r).2 = readSlice h r.names ∧
    readSlice (writeElem h (RegistryH.List h r).2 i v) r.names
      = (readSlice h r.names).set i v := by
  have hl : RegistryH.List h r = (h, r.names) := by
    simp [RegistryH.List, hsome]
  rw [hl]
  exact ⟨rfl, rfl, rfl, readSlice_writeElem h r.names i v hwf⟩

/-- C7 at a concrete input: the general aliasing theorem applied to the
two-name registry, overwriting element 0 with z. -/
theorem C7_list_aliases_witness :
    rC7.allMigrations = some [("b", migOk "b"), ("a", migOk "a")] ∧
    SliceWF hC7 rC7.names ∧
    ((RegistryH.List hC7 rC7).1 = hC7 ∧
     (RegistryH.List hC7 rC7).2 = rC7.names ∧
     readSlice hC7 (RegistryH.List hC7 rC7).2 = readSlice hC7 rC7.names ∧
     readSlice (writeElem hC7 (RegistryH.List hC7 rC7).2 0 "z") rC7.names
       = (readSlice hC7 rC7.names).set 0 "z") :=
  ⟨rfl, by decide, C7_list_aliases hC7 rC7 [("b", migOk "b"), ("a", migOk "a")] 0 "z" rfl
    (by decide)⟩

/-- C10: the two frame effects of From. When the source registry is
non-empty, the destination takes over the source's name slice and sorts it
in place, so afterwards the source's own name list reads back sorted in
ascending lexicographic order - its insertion order is lost. When the
source map is empty (nil included), From returns at once: the heap, the
destination's name slice and the destination's map entries are all exactly
as before. -/
theorem C10_from_effects (h : Heap) (r other : RegistryH) :
    (∀ oMap, other.allMigrations = some oMap → oMap ≠ [] → SliceWF h other.names →
       readSlice (RegistryH.From h r other).1 other.names
         = sortStrings (readSlice h other.names) ∧
       (readSlice (RegistryH.From h r other).1 other.names).Sorted StrLeP) ∧
    (other.entries = [] →
       (RegistryH.From h r other).1 = h ∧
       (RegistryH.From h r other).2.names = r.names ∧
       (RegistryH.From h r other).2.entries = r.entries) := by
  constructor
  · intro oMap hsome hne hwf
    have hlen : ¬ (oMap.length = 0) := fun hc => hne (List.length_eq_zero.mp hc)
    have hfrom : RegistryH.From h r other
        = (sortSliceInPlace (ensureCapacityH h r.names oMap.length).1 other.names,
           { allMigrations :=
               some (oMap.foldl (fun acc kv => mapInsert acc kv.1 kv.2) r.entries),
             names := other.names }) := by
      simp only [RegistryH.From, hsome]
      rw [if_neg hlen]
    rw [hfrom]
    obtain ⟨hpres, hwf2⟩ := ensureCapacityH_preserves h r.names oMap.length other.names hwf
    have hread : readSlice (ensureCapacityH h r.names oMap.length).1 other.names
        = readSlice h other.names := by
      simp only [readSlice, hpres]
    rw [readSlice_sortSliceInPlace (ensureCapacityH h r.names oMap.length).1 other.names hwf2,
        hread]
    exact ⟨rfl, sortStrings_sorted _⟩
  · intro hempty
    cases hsome : other.allMigrations with
    | none =>
      have hfrom : RegistryH.From h r other
          = (h, { r with allMigrations := some r.entries }) := by
        simp [RegistryH.From, hsome]
      rw [hfrom]
      exact ⟨rfl, rfl, rfl⟩
    | some oMap =>
      have hoMap : oMap = [] := by
        have he2 : other.entries = oMap := by simp [RegistryH.entries, hsome]
        rw [he2] at hempty
        exact hempty
      have hfrom : RegistryH.From h r other
          = (h, { r with allMigrations := some r.entries }) := by
        simp [RegistryH.From, hsome, hoMap]
      rw [hfrom]
      exact ⟨rfl, rfl, rfl⟩

/-- A heap with the destination's one-name array 0 and the source's
two-name array 1, for the C10 witness. -/
def hC10 : Heap := ⟨[(0, ["w"]), (1, ["b", "a"])], 2⟩

/-- A destination registry holding w, names backed by array 0. -/
def rC10 : RegistryH := ⟨some [("w", migOk "w")], ⟨0, 0, 1, 1⟩⟩

/-- A source registry that registered b then a, names backed by array 1. -/
def otherC10 : RegistryH :=
  ⟨some [("b", migOk "b"), ("a", migOk "a")], ⟨1, 0, 2, 2⟩⟩

/-- An empty (nil-map) source registry, for the empty half of the C10
witness. -/
def otherC10e : RegistryH := ⟨none, ⟨5, 0, 0, 0⟩⟩

/-- C10 at concrete inputs: copying from the b, a source sorts the source's
own name list to a, b; copying from an empty source changes nothing in the
destination or the heap. -/
theorem C10_from_effects_witness :
    (otherC10.allMigrations = some [("b", migOk "b"), ("a", migOk "a")] ∧
     SliceWF hC10 otherC10.names ∧
     (readSlice (RegistryH.From hC10 rC10 otherC10).1 otherC10.names
        = sortStrings (readSlice hC10 otherC10.names) ∧
      (readSlice (RegistryH.From hC10 rC10 otherC10).1 otherC10.names).Sorted StrLeP)) ∧
    (otherC10e.entries = [] ∧
     ((RegistryH.From hC10 rC10 otherC10e).1 = hC10 ∧
      (RegistryH.From hC10 rC10 otherC10e).2.names = rC10.names ∧
      (RegistryH.From hC10 rC10 otherC10e).2.entries = rC10.entries)) :=
  ⟨⟨rfl, by decide,
     (C10_from_effects hC10 rC10 otherC10).1 [("b", migOk "b"), ("a", migOk "a")] rfl
       (List.cons_ne_nil _ _) (by decide)⟩,
   ⟨rfl, (C10_from_effects hC10 rC10 otherC10e).2 rfl⟩⟩
